import Mathlib

/-!
Shallow embedding of the card-localization and field-recognition pipeline of
`fc_card_recognition` (files `src/core/image_processor.py` and
`src/core/recognizer.py`), together with theorems settling the spec claims.

Conventions of the embedding:
* Python `dict` objects are modelled as association lists that preserve
  insertion order: assignment to an existing key updates the value in place,
  assignment to a fresh key appends, `next(iter(d))` is the head.
* Python `float` ratio coordinates are modelled as rationals; `int(x)` on a
  nonnegative value is the floor.
* Images never cross the OCR/cv2 boundary in the model: the external
  `pytesseract` engine is an oracle supplying one raw string per
  preprocessing variant, the cv2 colour operations feeding the boost-gauge
  analyzer are abstracted to the binary green mask they produce, and contour
  extraction is abstracted to the list of contours (area plus bounding
  rectangle) that `cv2.findContours` returns.
-/

namespace FC

/-! ### Python `dict` as an insertion-ordered association list -/

/-- Python lookup `d[k]`: first (and only) binding of `k`. -/
def dictGet {K V : Type} [DecidableEq K] : List (K × V) → K → Option V
  | [], _ => none
  | (k', v) :: rest, k => if k = k' then some v else dictGet rest k

/-- Python assignment `d[k] = v`: update in place if the key exists, else append
(CPython insertion-order semantics). -/
def dictInsert {K V : Type} [DecidableEq K] : List (K × V) → K → V → List (K × V)
  | [], k, v => [(k, v)]
  | (k', v') :: rest, k, v =>
      if k' = k then (k', v) :: rest else (k', v') :: dictInsert rest k v

/-- Python membership test `k in d`. -/
def dictHas {K V : Type} [DecidableEq K] (d : List (K × V)) (k : K) : Bool :=
  (dictGet d k).isSome

/-- Python `d.get(k, dflt)`. -/
def dictGetD {K V : Type} [DecidableEq K] (d : List (K × V)) (k : K) (dflt : V) : V :=
  (dictGet d k).getD dflt

/-! ### FieldExtractor — `ImageProcessor.extract_rois`
(`src/core/image_processor.py`, lines 195-217).

A `RatioBox` is the 4-float entry of the ROI configuration; `extractROI`
computes, for a card of pixel size `W × H`, the pixel size of the crop the
code produces for that entry, or `none` when the entry is skipped by one of
the validation steps.  (`card[y1:y2, x1:x2]` has height `y2 - y1` and width
`x2 - x1`; the final `roi.size > 0` re-check is subsumed by the strict
pixel-coordinate inequalities.) -/

structure RatioBox where
  x1 : ℚ
  y1 : ℚ
  x2 : ℚ
  y2 : ℚ
deriving DecidableEq

/-- The coordinate validation `0 <= x1 < x2 <= 1 and 0 <= y1 < y2 <= 1`. -/
def ratioValid (b : RatioBox) : Prop :=
  0 ≤ b.x1 ∧ b.x1 < b.x2 ∧ b.x2 ≤ 1 ∧ 0 ≤ b.y1 ∧ b.y1 < b.y2 ∧ b.y2 ≤ 1

instance (b : RatioBox) : Decidable (ratioValid b) := by
  unfold ratioValid; infer_instance

/-- Pixel size `(width, height)` of the crop for one configuration entry, or
`none` when the entry is skipped. -/
def extractROI (W H : ℕ) (b : RatioBox) : Option (ℕ × ℕ) :=
  if ratioValid b then
    let x1px : ℤ := ⌊b.x1 * W⌋
    let y1px : ℤ := ⌊b.y1 * H⌋
    let x2px : ℤ := ⌊b.x2 * W⌋
    let y2px : ℤ := ⌊b.y2 * H⌋
    if 0 ≤ x1px ∧ x1px < x2px ∧ x2px ≤ W ∧ 0 ≤ y1px ∧ y1px < y2px ∧ y2px ≤ H then
      some ((x2px - x1px).toNat, (y2px - y1px).toNat)
    else
      none
  else
    none

/-- The full `extract_rois` map over a configuration: fields whose entry is
skipped are absent from the result. -/
def extractROIs (cfg : List (String × RatioBox)) (W H : ℕ) :
    List (String × (ℕ × ℕ)) :=
  cfg.foldl (fun acc fb =>
    match extractROI W H fb.2 with
    | some sz => dictInsert acc fb.1 sz
    | none => acc) []

/-! ### RegionLocator — `ImageProcessor.detect_card`
(`src/core/image_processor.py`, lines 64-177). -/

/-- One external contour as returned by `cv2.findContours`: its area and its
axis-aligned bounding rectangle. -/
structure Contour where
  area : ℚ
  cx : ℕ
  cy : ℕ
  cw : ℕ
  ch : ℕ
deriving DecidableEq

/-- The card region result: position `(x, y, w, h)` inside the normalized
frame (the cropped pixel data is determined by the position). -/
structure CardRegion where
  x : ℕ
  y : ℕ
  w : ℕ
  h : ℕ
deriving DecidableEq

/-- Size normalization: if either dimension exceeds 1280, scale uniformly so
the longer side becomes 1280 (`int` truncation on a nonnegative float). -/
def normalizeDims (w h : ℕ) : ℕ × ℕ :=
  if 1280 < w ∨ 1280 < h then
    ((⌊(w : ℚ) * (1280 / (max w h : ℚ))⌋).toNat,
     (⌊(h : ℚ) * (1280 / (max w h : ℚ))⌋).toNat)
  else (w, h)

/-- Python `max(valid_contours, key=cv2.contourArea)`: Python `max` keeps the first
maximal element, so only a strictly larger area replaces the candidate. -/
def largestContour (cs : List Contour) : Option Contour :=
  cs.foldl (fun acc c =>
    match acc with
    | none => some c
    | some b => if b.area < c.area then some c else acc) none

/-- Aspect-ratio acceptance test `1.0 <= h / w <= 1.8`. -/
def aspectOK (c : Contour) : Prop :=
  1 ≤ (c.ch : ℚ) / c.cw ∧ (c.ch : ℚ) / c.cw ≤ 9 / 5

instance (c : Contour) : Decidable (aspectOK c) := by
  unfold aspectOK; infer_instance

/-- Embedding of `detect_card` on an image of size `w × h` whose cleaned combined mask
yields the contour list `cs`.  The function body runs inside
`try: ... except: return None`; the one trigger of that handler reachable on
a well-formed input image is the normalization resize: when either scaled
dimension truncates to zero pixels (extreme aspect ratio), `cv2.resize`
rejects its empty `dsize` and the handler returns `None` — modelled by the
zero-dimension test below, which can fire only when the resize branch was
taken (otherwise both dimensions are at least 300). -/
def detect_card (w h : ℕ) (cs : List Contour) : Option CardRegion :=
  if w < 300 ∨ h < 300 then none
  else
    let W := (normalizeDims w h).1
    let H := (normalizeDims w h).2
    if W = 0 ∨ H = 0 then none
    else
      let minArea : ℚ := (W : ℚ) * (H : ℚ) * (1 / 10)
      let valid := cs.filter (fun c => decide (minArea < c.area))
      match largestContour valid with
      | some c =>
          if aspectOK c then some ⟨c.cx, c.cy, c.cw, c.ch⟩
          else some ⟨0, 0, W, H⟩
      | none => some ⟨0, 0, W, H⟩

/-! ### String utilities used by `OCRRecognizer._postprocess_text`
(`src/core/recognizer.py`, lines 379-468).

Python's `str.isdigit` / `str.isalpha` / `\w` are modelled on the character
ranges the OCR configurations can actually emit: ASCII (plus the Hangul
syllable block for the player-name field, whose Tesseract config enables
`kor+eng`). -/

/-- Python `''.join(filter(str.isdigit, text))`. -/
def digitsOnly (s : String) : String :=
  String.mk (s.data.filter Char.isDigit)

/-- Python `int(text)` on a nonempty digit string (base-10, leading zeros allowed). -/
def natOfDigits (s : String) : ℕ :=
  s.data.foldl (fun n c => n * 10 + (c.toNat - 48)) 0

/-- A character kept by `re.sub(r'[^\w가-힣]', '', text)`: word characters
(alphanumeric or underscore) and Hangul syllables. -/
def isWordChar (c : Char) : Bool :=
  c.isAlphanum || c == '_' || (decide ('가' ≤ c) && decide (c ≤ '힣'))

/-- The stripping step of the player-name normalizer (the later
`text.replace(" ", "")` is subsumed: a space is not a word character). -/
def stripName (s : String) : String :=
  String.mk (s.data.filter isWordChar)

/-- The table `valid_positions` (a Python set; only membership is used). -/
def validPositions : List String :=
  ["GK", "SW", "CB", "LB", "RB", "DMF", "CMF", "LMF", "RMF",
   "AMF", "LWF", "RWF", "SS", "CF", "ST", "CAM", "CDM", "RW"]

/-- The table `position_correction`. -/
def positionCorrection : List (String × String) :=
  [("DM", "DMF"), ("CM", "CMF"), ("AM", "AMF"), ("RM", "RMF"), ("LM", "LMF"),
   ("RW", "RWF"), ("LW", "LWF"), ("CD", "CB"), ("LWP", "LWF"), ("BWF", "RWF"),
   ("DMI", "DMF"), ("CNF", "CMF"), ("BMP", "RMF")]

/-- The table `icon_correction`. -/
def iconCorrection : List (String × String) :=
  [("FC21", "21FC"), ("FC22", "22FC"),
   ("TOT", "TOTS"), ("TTS", "TOTS"), ("T0TS", "TOTS"),
   ("TTY", "TOTY"), ("TOY", "TOTY"), ("T0TY", "TOTY"),
   ("HRO", "HERO"), ("HER", "HERO"), ("HEP0", "HERO"),
   ("IC0N", "ICON"), ("ICN", "ICON"), ("1CON", "ICON")]

/-- Python substring containment, written `sub in text`. -/
def containsSub (s sub : String) : Bool :=
  decide (sub.data <:+: s.data)

/-- Embedding of `OCRRecognizer._postprocess_text(text, field)`; `dict` is
`self.player_name_dict`. -/
def postprocessText (dict : List (String × String)) (text field : String) :
    String :=
  if field = "overall" then
    let t := digitsOnly text
    if t ≠ "" then
      let num := natOfDigits t
      if num < 70 then Nat.repr (70 + num % 50)
      else if 120 < num then Nat.repr (70 + num % 50)
      else t
    else t
  else if field = "position" then
    let t := (String.mk (text.data.filter Char.isAlpha)).toUpper
    let t := match dictGet positionCorrection t with
             | some c => c
             | none => t
    if t ∉ validPositions then
      if containsSub t "LW" || containsSub t "LF" then "LWF"
      else if containsSub t "RW" || containsSub t "RF" then "RWF"
      else if containsSub t "DM" then "DMF"
      else if containsSub t "CM" then "CMF"
      else if containsSub t "AM" then "AMF"
      else if containsSub t "CB" then "CB"
      else if t.startsWith "S" ∧ 1 < t.length then "ST"
      else t
    else t
  else if field = "salary" then
    let t := digitsOnly text
    if t ≠ "" then
      let num := natOfDigits t
      if 100 < num then Nat.repr (1 + num % 100) else t
    else t
  else if field = "enhance_level" then
    let t := digitsOnly text
    if t ≠ "" then
      if 5 < natOfDigits t then "5" else t
    else t
  else if field = "player_name" then
    let t := stripName text
    match dictGet dict t with
    | some c => c
    | none => t
  else if field = "season_icon" then
    let t := (String.mk (text.data.filter (fun c => c ≠ ' '))).toUpper
    match dictGet iconCorrection t with
    | some c => c
    | none => t
  else text

/-! ### GaugeAnalyzer — `OCRRecognizer._recognize_boost_level`
(`src/core/recognizer.py`, lines 230-308).

The cv2 colour conversion, `inRange` and morphological close are abstracted
to the binary green mask they produce; everything from the scanline walk on
is embedded from the source.  The `except` arm (which returns `("0", 0.0)`)
is unreachable in the model because the embedded computation is total. -/

/-- The cleaned binary green mask of a boost-gauge crop. -/
structure GreenMask where
  width : ℕ
  height : ℕ
  rows : List (List Bool)

/-- Python `np.any(row[x:x+5] > 0)` (the guard `x + 5 < width` makes the slice full
length; `row[x]` itself is off when this is consulted). -/
def anyGreenAhead (row : List Bool) (x : ℕ) : Bool :=
  (List.range 5).any (fun i => row.getD (x + i) false)

/-- The inner scanline loop: walk `x` left to right (the fuel counts the
remaining iterations of `for x in range(width)`), remembering the index of
the last green pixel; a gap is tolerated while some green lies within the
next five pixels, otherwise the walk stops (`break`) once green has been
seen. -/
def scanRowGo (row : List Bool) (w : ℕ) : ℕ → ℕ → ℕ → ℕ
  | 0, _, greenEnd => greenEnd
  | fuel + 1, x, greenEnd =>
      if row.getD x false then scanRowGo row w fuel (x + 1) x
      else if x + 5 < w ∧ anyGreenAhead row x then
        scanRowGo row w fuel (x + 1) greenEnd
      else if 0 < greenEnd then greenEnd
      else scanRowGo row w fuel (x + 1) greenEnd

/-- The value `green_end` for one scanline. -/
def scanRow (row : List Bool) (w : ℕ) : ℕ :=
  scanRowGo row w w 0 0

/-- The seven possible gauge values. -/
def boostSteps : List ℕ := [0, 20, 40, 50, 60, 80, 100]

/-- The threshold ladder. -/
def boostThresholds : List ℚ :=
  [1/20, 1/4, 9/20, 11/20, 13/20, 17/20, 19/20]

/-- The quantization loop: every step whose threshold does not exceed the
ratio overwrites the current answer, so the last (largest) such threshold
wins. -/
def boostFromRatio (r : ℚ) : ℕ :=
  (boostSteps.zip boostThresholds).foldl
    (fun acc p => if p.2 ≤ r then p.1 else acc) 0

/-- Embedding of `_recognize_boost_level` on the green mask of a crop. -/
def recognizeBoostLevel (m : GreenMask) : String × ℚ :=
  let positions := [m.height / 4, m.height / 2, m.height * 3 / 4]
  let greenEnds := (positions.filter (fun p => p < m.height)).map
      (fun p => scanRow (m.rows.getD p []) m.width)
  let greenEnd : ℚ :=
    if greenEnds ≠ [] then
      ((greenEnds.map (fun n => (n : ℚ))).sum) / (greenEnds.length : ℚ)
    else 0
  let ratio : ℚ := (greenEnd + 1) / (m.width : ℚ)
  (Nat.repr (boostFromRatio ratio), 1)

/-! ### Voting — `Counter(results).most_common(1)[0]`
(`src/core/recognizer.py`, lines 191-196).

`Counter` keys appear in first-insertion order and `most_common(1)` keeps the
first maximal key, so the winner is the most frequent string, ties broken in
favour of the earliest first occurrence. -/

/-- The scan collecting distinct elements in order of first occurrence;
`seen` holds the keys already collected. -/
def firstDedupGo : List String → List String → List String
  | [], _ => []
  | a :: rest, seen =>
      if a ∈ seen then firstDedupGo rest seen
      else a :: firstDedupGo rest (a :: seen)

/-- The distinct elements of a list in order of first occurrence
(`Counter` key order). -/
def firstDedup (l : List String) : List String :=
  firstDedupGo l []

/-- The scan for the first key of maximal count: a later key replaces the
candidate only when its count is strictly larger. -/
def argmaxGo (l : List String) : Option (String × ℕ) → List String →
    Option (String × ℕ)
  | acc, [] => acc
  | none, s :: ds => argmaxGo l (some (s, l.count s)) ds
  | some p, s :: ds =>
      argmaxGo l (if p.2 < l.count s then some (s, l.count s) else some p) ds

/-- Python `most_common(1)[0]`: the first key of maximal count, with its count
(`none` on the empty list). -/
def argmaxCount (l : List String) : Option (String × ℕ) :=
  argmaxGo l none (firstDedup l)

/-! ### TextRecognizer — `OCRRecognizer.recognize_text`
(`src/core/recognizer.py`, lines 132-228).

The OCR engine is an oracle: a `FieldView` carries the (already `.strip()`ed)
raw string `pytesseract` returns for each preprocessing variant of the crop,
plus the green mask of the crop for the gauge path.  The function below is
the per-call computation on a cache miss; the cache itself (lines 203-214) is
modelled separately by `cachePut`. -/

/-- What the external engines see of one field crop. -/
structure FieldView where
  /-- Python `roi.size == 0` (a `None` roi is skipped by the caller). -/
  isEmpty : Bool
  /-- one raw OCR string per preprocessing variant. -/
  raws : List String
  /-- the green mask of the crop (consulted only for `boost_level`). -/
  gmask : GreenMask

/-- The table `default_values` of the failure fallback. -/
def defaultValues : List (String × String) :=
  [("overall", "80"), ("position", "ST"), ("salary", "1"),
   ("enhance_level", "0"), ("player_name", "알 수 없음"),
   ("season_icon", "21FC"), ("boost_level", "0")]

/-- Python `default_values.get(field, '')`. -/
def defaultValue (f : String) : String :=
  dictGetD defaultValues f ""

/-- Embedding of `recognize_text(roi, field)` on a cache miss; `dict` is
`self.player_name_dict`. -/
def recognizeText (dict : List (String × String)) (f : String)
    (v : FieldView) : String × ℚ :=
  if v.isEmpty then ("", 0)
  else if f = "boost_level" then recognizeBoostLevel v.gmask
  else
    let results := (v.raws.map (fun r => postprocessText dict r f)).filter
        (fun t => t ≠ "")
    match argmaxCount results with
    | some p =>
        let confidence : ℚ := (p.2 : ℚ) / (v.raws.length : ℚ)
        if f = "player_name" ∧ dictHas dict p.1 then
          (dictGetD dict p.1 p.1, 1)
        else (p.1, confidence)
    | none => (defaultValue f, 0)

/-! ### ResultCache — `src/core/recognizer.py`, lines 203-214. -/

/-- One cache write: insert under the key, then, if the cache now holds more
than 1000 entries, evict the single oldest-inserted entry. -/
def cachePut {K V : Type} [DecidableEq K] (cache : List (K × V)) (k : K)
    (v : V) : List (K × V) :=
  let c := dictInsert cache k v
  if 1000 < c.length then c.drop 1 else c

/-! ### Aggregation — `OCRRecognizer.recognize_all` and
`CombinedRecognizer.recognize_all` (`src/core/recognizer.py`, lines 114-130
and 512-564). -/

/-- The aggregate result dictionary. -/
structure RecResult where
  success : Bool
  results : List (String × String)
  confidences : List (String × ℚ)

/-- One iteration of the `recognize_all` loop. -/
def ocrStep (dict : List (String × String)) (res : RecResult)
    (fr : String × Option FieldView) : RecResult :=
  match fr.2 with
  | none => res
  | some v =>
      let tc := recognizeText dict fr.1 v
      { res with
          results := dictInsert res.results fr.1 tc.1,
          confidences := dictInsert res.confidences fr.1 tc.2 }

/-- Embedding of `OCRRecognizer.recognize_all(rois)`: `None` rois are skipped; the
`success` flag is set once up front. -/
def recognizeAllOCR (dict : List (String × String))
    (rois : List (String × Option FieldView)) : RecResult :=
  rois.foldl (ocrStep dict) ⟨true, [], []⟩

/-- The fields `_load_models` attempts to load a classifier for. -/
def classifierFields : List String :=
  ["overall", "position", "salary", "enhance_level", "season_icon"]

/-- The keys `self.models.keys()`: the subset of `classifierFields` whose artifact
exists and loads. -/
def loadModels (present : String → Bool) : List String :=
  classifierFields.filter present

/-- One iteration of the model-fusion loop (`field in rois and rois[field]
is not None`; predict; replace the OCR outcome when the classifier's
confidence is strictly larger). -/
def combineStep (rois : List (String × Option FieldView))
    (predict : String → Option (String × ℚ)) (res : RecResult) (f : String) :
    RecResult :=
  match dictGet rois f with
  | some (some _) =>
      match predict f with
      | some vc =>
          let ocrConf := dictGetD res.confidences f 0
          if ocrConf < vc.2 then
            { res with
                results := dictInsert res.results f vc.1,
                confidences := dictInsert res.confidences f vc.2 }
          else res
      | none => res
  | _ => res

/-- Embedding of `CombinedRecognizer.recognize_all(rois)`.  Classifier inference (resize,
scaling, arg-max and the label mapping of lines 521-551) is an oracle
`predict : field ↦ some (value, confidence)`, with `none` when inference
raises. -/
def recognizeAllCombined (dict : List (String × String))
    (rois : List (String × Option FieldView)) (present : String → Bool)
    (predict : String → Option (String × ℚ)) : RecResult :=
  (loadModels present).foldl (combineStep rois predict)
    (recognizeAllOCR dict rois)

/-! ## Supporting lemmas -/

section DictLemmas

variable {K V : Type} [DecidableEq K]

theorem dictGet_dictInsert (d : List (K × V)) (k k' : K) (v : V) :
    dictGet (dictInsert d k v) k' = if k' = k then some v else dictGet d k' := by
  induction d with
  | nil => simp [dictInsert, dictGet]
  | cons kv rest ih =>
      obtain ⟨k0, v0⟩ := kv
      by_cases h1 : k0 = k
      · subst h1
        by_cases h2 : k' = k0 <;> simp [dictInsert, dictGet, h2]
      · by_cases h2 : k' = k0
        · have h3 : ¬ k' = k := fun hc => h1 (h2.symm.trans hc)
          simp [dictInsert, dictGet, h1, h2, h3]
        · simp [dictInsert, dictGet, h1, h2, ih]

theorem length_dictInsert_le (d : List (K × V)) (k : K) (v : V) :
    (dictInsert d k v).length ≤ d.length + 1 := by
  induction d with
  | nil => simp [dictInsert]
  | cons kv rest ih =>
      simp only [dictInsert]
      split
      · simp
      · simpa using Nat.succ_le_succ ih

theorem dictInsert_of_get_none (d : List (K × V)) (k : K) (v : V)
    (h : dictGet d k = none) : dictInsert d k v = d ++ [(k, v)] := by
  induction d with
  | nil => simp [dictInsert]
  | cons kv rest ih =>
      simp only [dictGet] at h
      by_cases h1 : k = kv.1
      · simp [h1] at h
      · have h2 : ¬ kv.1 = k := fun hc => h1 hc.symm
        simp only [dictInsert, if_neg h2, List.cons_append, List.cons.injEq, true_and]
        exact ih (by simpa [h1] using h)

theorem dictGet_append (c d : List (K × V)) (k : K) :
    dictGet (c ++ d) k =
      match dictGet c k with
      | some v => some v
      | none => dictGet d k := by
  induction c with
  | nil => simp [dictGet]
  | cons kv rest ih =>
      by_cases h : k = kv.1 <;> simp [dictGet, h, ih]

theorem dictGet_eq_none_of_not_mem (d : List (K × V)) (k : K)
    (h : k ∉ d.map Prod.fst) : dictGet d k = none := by
  induction d with
  | nil => simp [dictGet]
  | cons kv rest ih =>
      simp only [List.map_cons, List.mem_cons] at h
      push_neg at h
      simp [dictGet, h.1, ih h.2]

end DictLemmas

section CacheLemmas

variable {K V : Type} [DecidableEq K]

theorem cachePut_length_le (cache : List (K × V)) (k : K) (v : V)
    (h : cache.length ≤ 1000) : (cachePut cache k v).length ≤ 1000 := by
  have hle := length_dictInsert_le cache k v
  by_cases hgt : 1000 < (dictInsert cache k v).length
  · simp only [cachePut, if_pos hgt, List.length_drop]
    omega
  · simp only [cachePut, if_neg hgt]
    omega

/-- Inserting fresh, pairwise-distinct keys while staying within capacity just
appends the pairs. -/
theorem foldl_cachePut_fresh (ps : List (K × V)) :
    ∀ cache : List (K × V),
      (∀ p ∈ ps, dictGet cache p.1 = none) → (ps.map Prod.fst).Nodup →
      cache.length + ps.length ≤ 1000 →
      ps.foldl (fun c kv => cachePut c kv.1 kv.2) cache = cache ++ ps := by
  induction ps with
  | nil => simp
  | cons p rest ih =>
      intro cache hfresh hnodup hlen
      simp only [List.map_cons, List.nodup_cons] at hnodup
      have hput : cachePut cache p.1 p.2 = cache ++ [p] := by
        unfold cachePut
        rw [dictInsert_of_get_none cache p.1 p.2 (hfresh p (by simp))]
        have : (cache ++ [p]).length = cache.length + 1 := by simp
        rw [if_neg (by simp at hlen ⊢; omega)]
      simp only [List.foldl_cons, hput]
      rw [ih (cache ++ [p]) ?fresh hnodup.2 (by simp at hlen ⊢; omega)]
      · simp
      case fresh =>
        intro q hq
        rw [dictGet_append]
        rw [hfresh q (by simp [hq])]
        have hne : ¬ q.1 = p.1 := by
          intro hc
          exact hnodup.1 (by simpa [hc] using List.mem_map_of_mem Prod.fst hq)
        simp [dictGet, hne]

end CacheLemmas

section VoteLemmas

theorem mem_firstDedupGo : ∀ (l seen : List String) (t : String),
    t ∈ firstDedupGo l seen ↔ t ∈ l ∧ t ∉ seen := by
  intro l
  induction l with
  | nil => intro seen t; simp [firstDedupGo]
  | cons a rest ih =>
      intro seen t
      by_cases ha : a ∈ seen
      · rw [firstDedupGo, if_pos ha, ih]
        rcases eq_or_ne t a with rfl | h
        · simp [ha]
        · simp [h]
      · rw [firstDedupGo, if_neg ha]
        rcases eq_or_ne t a with rfl | h
        · simp [ha]
        · simp [List.mem_cons, h, ih, not_or]

theorem mem_firstDedup (l : List String) (t : String) :
    t ∈ firstDedup l ↔ t ∈ l := by
  rw [firstDedup, mem_firstDedupGo]
  simp

theorem argmaxGo_some (l : List String) :
    ∀ (ds : List String) (s : String) (c : ℕ), c = l.count s →
      ∃ s' c', argmaxGo l (some (s, c)) ds = some (s', c') ∧
        c' = l.count s' ∧ (s' = s ∨ s' ∈ ds) ∧ c ≤ c' ∧
        ∀ t ∈ ds, l.count t ≤ c' := by
  intro ds
  induction ds with
  | nil =>
      intro s c hc
      exact ⟨s, c, rfl, hc, Or.inl rfl, le_refl _, by simp⟩
  | cons d ds ih =>
      intro s c hc
      simp only [argmaxGo]
      by_cases hlt : c < l.count d
      · rw [if_pos hlt]
        obtain ⟨s', c', heq, hcount, hmem, hle, hmax⟩ := ih d (l.count d) rfl
        refine ⟨s', c', heq, hcount, ?_, ?_, ?_⟩
        · rcases hmem with h | h
          · exact Or.inr (by simp [h])
          · exact Or.inr (by simp [h])
        · omega
        · intro t ht
          rcases List.mem_cons.mp ht with rfl | ht'
          · omega
          · exact hmax t ht'
      · rw [if_neg hlt]
        obtain ⟨s', c', heq, hcount, hmem, hle, hmax⟩ := ih s c hc
        refine ⟨s', c', heq, hcount, ?_, hle, ?_⟩
        · rcases hmem with h | h
          · exact Or.inl h
          · exact Or.inr (by simp [h])
        · intro t ht
          rcases List.mem_cons.mp ht with rfl | ht'
          · omega
          · exact hmax t ht'

theorem argmaxCount_spec (l : List String) (s : String) (c : ℕ)
    (h : argmaxCount l = some (s, c)) :
    s ∈ l ∧ c = l.count s ∧ ∀ t, l.count t ≤ c := by
  unfold argmaxCount at h
  rcases hd : firstDedup l with _ | ⟨a, ds⟩
  · rw [hd] at h; simp [argmaxGo] at h
  · rw [hd] at h
    simp only [argmaxGo] at h
    obtain ⟨s', c', heq, hcount, hmem, hle, hmax⟩ :=
      argmaxGo_some l ds a (l.count a) rfl
    rw [heq] at h
    simp only [Option.some.injEq, Prod.mk.injEq] at h
    obtain ⟨rfl, rfl⟩ := h
    have hmema : a ∈ l := (mem_firstDedup l a).mp (by rw [hd]; simp)
    refine ⟨?_, hcount, ?_⟩
    · rcases hmem with rfl | hin
      · exact hmema
      · exact (mem_firstDedup l s').mp (by rw [hd]; simp [hin])
    · intro t
      by_cases ht : t ∈ l
      · have hmt : t ∈ firstDedup l := (mem_firstDedup l t).mpr ht
        rw [hd] at hmt
        rcases List.mem_cons.mp hmt with rfl | hin
        · omega
        · exact hmax t hin
      · rw [List.count_eq_zero.mpr ht]
        omega

end VoteLemmas

section AggregationLemmas

theorem success_ocrStep (dict : List (String × String)) (res : RecResult)
    (fr : String × Option FieldView) :
    (ocrStep dict res fr).success = res.success := by
  unfold ocrStep
  rcases fr with ⟨f, _ | v⟩ <;> rfl

theorem success_foldl_ocrStep (dict : List (String × String)) :
    ∀ (l : List (String × Option FieldView)) (res : RecResult),
      (l.foldl (ocrStep dict) res).success = res.success := by
  intro l
  induction l with
  | nil => intro res; rfl
  | cons fr l ih =>
      intro res
      rw [List.foldl_cons, ih, success_ocrStep]

theorem success_combineStep (rois : List (String × Option FieldView))
    (predict : String → Option (String × ℚ)) (res : RecResult) (f : String) :
    (combineStep rois predict res f).success = res.success := by
  unfold combineStep
  rcases dictGet rois f with _ | (_ | v)
  · rfl
  · rfl
  · rcases predict f with _ | vc
    · rfl
    · by_cases hc : dictGetD res.confidences f 0 < vc.2 <;> simp [hc]

theorem success_foldl_combineStep (rois : List (String × Option FieldView))
    (predict : String → Option (String × ℚ)) :
    ∀ (fs : List String) (res : RecResult),
      (fs.foldl (combineStep rois predict) res).success = res.success := by
  intro fs
  induction fs with
  | nil => intro res; rfl
  | cons f fs ih =>
      intro res
      rw [List.foldl_cons, ih, success_combineStep]

theorem combineStep_lookup_ne (rois : List (String × Option FieldView))
    (predict : String → Option (String × ℚ)) (res : RecResult) (f g : String)
    (h : g ≠ f) :
    dictGet (combineStep rois predict res f).results g = dictGet res.results g ∧
    dictGet (combineStep rois predict res f).confidences g =
      dictGet res.confidences g := by
  unfold combineStep
  rcases dictGet rois f with _ | (_ | v)
  · exact ⟨rfl, rfl⟩
  · exact ⟨rfl, rfl⟩
  · rcases predict f with _ | vc
    · exact ⟨rfl, rfl⟩
    · by_cases hc : dictGetD res.confidences f 0 < vc.2
      · simp only [hc, if_true, dictGet_dictInsert, if_neg h]
        exact ⟨trivial, trivial⟩
      · simp only [hc, if_false]
        exact ⟨trivial, trivial⟩

theorem foldl_combineStep_lookup_notin (rois : List (String × Option FieldView))
    (predict : String → Option (String × ℚ)) :
    ∀ (fs : List String) (res : RecResult) (g : String), g ∉ fs →
      dictGet ((fs.foldl (combineStep rois predict) res)).results g =
        dictGet res.results g ∧
      dictGet ((fs.foldl (combineStep rois predict) res)).confidences g =
        dictGet res.confidences g := by
  intro fs
  induction fs with
  | nil => intro res g _; exact ⟨rfl, rfl⟩
  | cons f fs ih =>
      intro res g hg
      have hg1 : g ≠ f := fun hc => hg (by simp [hc])
      have hg2 : g ∉ fs := fun hc => hg (by simp [hc])
      rw [List.foldl_cons]
      obtain ⟨hr, hc⟩ := ih (combineStep rois predict res f) g hg2
      obtain ⟨hr', hc'⟩ := combineStep_lookup_ne rois predict res f g hg1
      exact ⟨hr.trans hr', hc.trans hc'⟩

theorem foldl_combineStep_lookup_in (rois : List (String × Option FieldView))
    (predict : String → Option (String × ℚ)) (fv : FieldView) (vc : String × ℚ) :
    ∀ (fs : List String) (res : RecResult) (f : String), fs.Nodup → f ∈ fs →
      dictGet rois f = some (some fv) → predict f = some vc →
      dictGet ((fs.foldl (combineStep rois predict) res)).results f =
        (if dictGetD res.confidences f 0 < vc.2 then some vc.1
         else dictGet res.results f) ∧
      dictGet ((fs.foldl (combineStep rois predict) res)).confidences f =
        (if dictGetD res.confidences f 0 < vc.2 then some vc.2
         else dictGet res.confidences f) := by
  intro fs
  induction fs with
  | nil => intro res f _ hmem; exact absurd hmem (by simp)
  | cons a fs ih =>
      intro res f hnodup hmem hroi hpred
      rw [List.nodup_cons] at hnodup
      rw [List.foldl_cons]
      rcases List.mem_cons.mp hmem with rfl | hin
      · -- `f` is processed now; the remaining fields leave it untouched
        obtain ⟨hr, hc⟩ := foldl_combineStep_lookup_notin rois predict fs
          (combineStep rois predict res f) f hnodup.1
        rw [hr, hc]
        unfold combineStep
        rw [hroi, hpred]
        by_cases hcmp : dictGetD res.confidences f 0 < vc.2
        · simp only [hcmp, if_true, dictGet_dictInsert, if_pos rfl]
          exact ⟨trivial, trivial⟩
        · simp only [hcmp, if_false]
          exact ⟨trivial, trivial⟩
      · -- `f` comes later; the current step touches only `a ≠ f`
        have hne : f ≠ a := fun hc => hnodup.1 (hc ▸ hin)
        obtain ⟨hr', hc'⟩ := combineStep_lookup_ne rois predict res a f hne
        have hgd : dictGetD (combineStep rois predict res a).confidences f 0 =
            dictGetD res.confidences f 0 := by
          unfold dictGetD
          rw [hc']
        obtain ⟨hr, hc⟩ := ih (combineStep rois predict res a) f hnodup.2 hin
          hroi hpred
        rw [hr, hc, hgd, hr', hc']
        exact ⟨rfl, rfl⟩

end AggregationLemmas

/-! ## Claim C1 — field-extraction crop size -/

/-- C1, counterexample.  The claim says every valid `RatioBox` yields a crop
of pixel size `(⌊(x2-x1)·W⌋, ⌊(y2-y1)·H⌋)`, at least `(1,1)`, present in the
map.  For the valid box `(0, 0, 0.05, 0.5)` on a 10×10 region the code
computes pixel bounds `x1 = 0, x2 = ⌊0.5⌋ = 0`, fails `x1_px < x2_px`, and
silently skips the field; the claimed width `⌊0.05·10⌋ = 0` is not `≥ 1`
either. -/
theorem c1_extract_counterexample :
    ratioValid ⟨0, 0, 1/20, 1/2⟩ ∧
    extractROI 10 10 ⟨0, 0, 1/20, 1/2⟩ = none ∧
    ¬ (1 : ℤ) ≤ ⌊((1 : ℚ)/20 - 0) * (10 : ℕ)⌋ := by
  refine ⟨by norm_num [ratioValid], by norm_num [extractROI, ratioValid], ?_⟩
  norm_num

/-- C1, amended.  For a valid `RatioBox` on a `W × H` region, the field is
present iff `⌊x1·W⌋ < ⌊x2·W⌋` and `⌊y1·H⌋ < ⌊y2·H⌋`; the crop then has pixel
size `(⌊x2·W⌋ - ⌊x1·W⌋, ⌊y2·H⌋ - ⌊y1·H⌋)` (which in general differs from
`(⌊(x2-x1)·W⌋, ⌊(y2-y1)·H⌋)`), and every produced crop has size at least
`(1, 1)`. -/
theorem c1_extract_size (W H : ℕ) (b : RatioBox) (h : ratioValid b) :
    extractROI W H b =
      (if ⌊b.x1 * (W : ℚ)⌋ < ⌊b.x2 * (W : ℚ)⌋ ∧
          ⌊b.y1 * (H : ℚ)⌋ < ⌊b.y2 * (H : ℚ)⌋ then
        some ((⌊b.x2 * (W : ℚ)⌋ - ⌊b.x1 * (W : ℚ)⌋).toNat,
              (⌊b.y2 * (H : ℚ)⌋ - ⌊b.y1 * (H : ℚ)⌋).toNat)
      else none) ∧
    ∀ p : ℕ × ℕ, extractROI W H b = some p → 1 ≤ p.1 ∧ 1 ≤ p.2 := by
  obtain ⟨hx1, hx12, hx2, hy1, hy12, hy2⟩ := h
  have hfx1 : (0 : ℤ) ≤ ⌊b.x1 * (W : ℚ)⌋ :=
    Int.floor_nonneg.mpr (mul_nonneg hx1 (by positivity))
  have hfy1 : (0 : ℤ) ≤ ⌊b.y1 * (H : ℚ)⌋ :=
    Int.floor_nonneg.mpr (mul_nonneg hy1 (by positivity))
  have hfx2 : ⌊b.x2 * (W : ℚ)⌋ ≤ (W : ℤ) := by
    have : b.x2 * (W : ℚ) ≤ (W : ℚ) := by
      calc b.x2 * (W : ℚ) ≤ 1 * (W : ℚ) :=
            mul_le_mul_of_nonneg_right hx2 (by positivity)
        _ = (W : ℚ) := one_mul _
    calc ⌊b.x2 * (W : ℚ)⌋ ≤ ⌊(W : ℚ)⌋ := Int.floor_le_floor this
      _ = (W : ℤ) := Int.floor_natCast W
  have hfy2 : ⌊b.y2 * (H : ℚ)⌋ ≤ (H : ℤ) := by
    have : b.y2 * (H : ℚ) ≤ (H : ℚ) := by
      calc b.y2 * (H : ℚ) ≤ 1 * (H : ℚ) :=
            mul_le_mul_of_nonneg_right hy2 (by positivity)
        _ = (H : ℚ) := one_mul _
    calc ⌊b.y2 * (H : ℚ)⌋ ≤ ⌊(H : ℚ)⌋ := Int.floor_le_floor this
      _ = (H : ℤ) := Int.floor_natCast H
  have hvalid : ratioValid b := ⟨hx1, hx12, hx2, hy1, hy12, hy2⟩
  have hmain : extractROI W H b =
      (if ⌊b.x1 * (W : ℚ)⌋ < ⌊b.x2 * (W : ℚ)⌋ ∧
          ⌊b.y1 * (H : ℚ)⌋ < ⌊b.y2 * (H : ℚ)⌋ then
        some ((⌊b.x2 * (W : ℚ)⌋ - ⌊b.x1 * (W : ℚ)⌋).toNat,
              (⌊b.y2 * (H : ℚ)⌋ - ⌊b.y1 * (H : ℚ)⌋).toNat)
      else none) := by
    unfold extractROI
    rw [if_pos hvalid]
    by_cases hc : ⌊b.x1 * (W : ℚ)⌋ < ⌊b.x2 * (W : ℚ)⌋ ∧
        ⌊b.y1 * (H : ℚ)⌋ < ⌊b.y2 * (H : ℚ)⌋
    · rw [if_pos hc, if_pos ⟨hfx1, hc.1, hfx2, hfy1, hc.2, hfy2⟩]
    · rw [if_neg hc, if_neg (fun hall => hc ⟨hall.2.1, hall.2.2.2.2.1⟩)]
  refine ⟨hmain, ?_⟩
  intro p hp
  rw [hmain] at hp
  by_cases hc : ⌊b.x1 * (W : ℚ)⌋ < ⌊b.x2 * (W : ℚ)⌋ ∧
      ⌊b.y1 * (H : ℚ)⌋ < ⌊b.y2 * (H : ℚ)⌋
  · rw [if_pos hc, Option.some.injEq] at hp
    rw [← hp]
    constructor <;> simp <;> omega
  · rw [if_neg hc] at hp
    exact absurd hp (by simp)

/-- C1, witness for the amended theorem at the valid box `(0, 0, 0.5, 0.75)`
on a 10×10 region: the crop is present with size `(5, 7) ≥ (1, 1)`. -/
theorem c1_extract_size_witness :
    ratioValid ⟨0, 0, 1/2, 3/4⟩ ∧
    extractROI 10 10 ⟨0, 0, 1/2, 3/4⟩ = some (5, 7) ∧
    (1 ≤ 5 ∧ 1 ≤ 7) :=
  ⟨by norm_num [ratioValid],
   by norm_num [extractROI, ratioValid]; decide,
   (c1_extract_size 10 10 ⟨0, 0, 1/2, 3/4⟩ (by norm_num [ratioValid])).2
     (5, 7) (by norm_num [extractROI, ratioValid]; decide)⟩

/-! ## Claim C5 — overall-field normalizer -/

/-- Parsing inverts decimal rendering for the values the normalizer can
produce. -/
theorem natOfDigits_repr_lt : ∀ m : ℕ, m < 130 → natOfDigits (Nat.repr m) = m := by
  decide

/-- C5.  On any text whose digit-stripped form is non-empty and parses to
`n`, the overall normalizer returns `n` unchanged when `70 ≤ n ≤ 120` and
otherwise returns `70 + (n % 50)`, which always lies in `[70, 120)`. -/
theorem c5_overall_rebase (dict : List (String × String)) (s : String)
    (h : digitsOnly s ≠ "") :
    (postprocessText dict s "overall" =
      if 70 ≤ natOfDigits (digitsOnly s) ∧ natOfDigits (digitsOnly s) ≤ 120
      then digitsOnly s
      else Nat.repr (70 + natOfDigits (digitsOnly s) % 50)) ∧
    (¬ (70 ≤ natOfDigits (digitsOnly s) ∧ natOfDigits (digitsOnly s) ≤ 120) →
      70 ≤ 70 + natOfDigits (digitsOnly s) % 50 ∧
      70 + natOfDigits (digitsOnly s) % 50 < 120) ∧
    natOfDigits (postprocessText dict s "overall") =
      (if 70 ≤ natOfDigits (digitsOnly s) ∧ natOfDigits (digitsOnly s) ≤ 120
       then natOfDigits (digitsOnly s)
       else 70 + natOfDigits (digitsOnly s) % 50) := by
  have hov : postprocessText dict s "overall" =
      if natOfDigits (digitsOnly s) < 70 then
        Nat.repr (70 + natOfDigits (digitsOnly s) % 50)
      else if 120 < natOfDigits (digitsOnly s) then
        Nat.repr (70 + natOfDigits (digitsOnly s) % 50)
      else digitsOnly s := by
    simp only [postprocessText, reduceIte, if_neg (by simpa using h), h,
      ite_not]
  refine ⟨?_, fun _ => by omega, ?_⟩
  · rw [hov]
    split_ifs <;> first | rfl | (exfalso; omega)
  · rw [hov]
    have hrt : ∀ m : ℕ, m < 130 → natOfDigits (Nat.repr m) = m :=
      natOfDigits_repr_lt
    split_ifs <;>
      first
        | rfl
        | (exfalso; omega)
        | (rw [hrt (70 + natOfDigits (digitsOnly s) % 50) (by omega)])

/-- C5, witness at `"130"`: parses to 130, out of range, re-based to
`70 + 130 % 50 = 100`. -/
theorem c5_overall_rebase_witness :
    digitsOnly "130" ≠ "" ∧
    natOfDigits (postprocessText [] "130" "overall") =
      (if 70 ≤ natOfDigits (digitsOnly "130") ∧
          natOfDigits (digitsOnly "130") ≤ 120
       then natOfDigits (digitsOnly "130")
       else 70 + natOfDigits (digitsOnly "130") % 50) :=
  ⟨by decide, (c5_overall_rebase [] "130" (by decide)).2.2⟩

/-! ## Claim C8 — gauge quantizer -/

/-- Closed form of the quantization loop. -/
theorem boostFromRatio_eq (r : ℚ) :
    boostFromRatio r =
      if 19/20 ≤ r then 100
      else if 17/20 ≤ r then 80
      else if 13/20 ≤ r then 60
      else if 11/20 ≤ r then 50
      else if 9/20 ≤ r then 40
      else if 1/4 ≤ r then 20
      else 0 := by
  simp only [boostFromRatio, boostSteps, boostThresholds, List.zip,
    List.zipWith, List.foldl, ite_self]

set_option maxHeartbeats 1000000 in
/-- C8.  The gauge quantizer is monotone, total over the seven-step ladder
`{0,20,40,50,60,80,100}`, outputs `0` below `0.05`, and outputs the step of
the largest threshold not exceeding the ratio. -/
theorem c8_gauge_quantizer :
    (∀ r1 r2 : ℚ, r1 ≤ r2 → boostFromRatio r1 ≤ boostFromRatio r2) ∧
    (∀ r : ℚ, boostFromRatio r ∈ boostSteps) ∧
    (∀ r : ℚ, r < 1/20 → boostFromRatio r = 0) ∧
    (∀ r : ℚ, ∀ p ∈ boostSteps.zip boostThresholds, p.2 ≤ r →
      (∀ q ∈ boostSteps.zip boostThresholds, q.2 ≤ r → q.2 ≤ p.2) →
      boostFromRatio r = p.1) := by
  refine ⟨?_, ?_, ?_, ?_⟩
  · intro r1 r2 h12
    rw [boostFromRatio_eq, boostFromRatio_eq]
    split_ifs <;> first | omega | linarith
  · intro r
    rw [boostFromRatio_eq]
    split_ifs <;> simp [boostSteps]
  · intro r hr
    rw [boostFromRatio_eq]
    split_ifs <;> first | rfl | linarith
  · intro r p hp hle hmax
    have hmem : ∀ (s : ℕ) (t : ℚ), (s, t) ∈ boostSteps.zip boostThresholds →
        t ≤ r → t ≤ p.2 := fun s t hm ht => hmax (s, t) hm ht
    have m100 : ((100 : ℕ), (19/20 : ℚ)) ∈ boostSteps.zip boostThresholds := by
      simp [boostSteps, boostThresholds]
    have m80 : ((80 : ℕ), (17/20 : ℚ)) ∈ boostSteps.zip boostThresholds := by
      simp [boostSteps, boostThresholds]
    have m60 : ((60 : ℕ), (13/20 : ℚ)) ∈ boostSteps.zip boostThresholds := by
      simp [boostSteps, boostThresholds]
    have m50 : ((50 : ℕ), (11/20 : ℚ)) ∈ boostSteps.zip boostThresholds := by
      simp [boostSteps, boostThresholds]
    have m40 : ((40 : ℕ), (9/20 : ℚ)) ∈ boostSteps.zip boostThresholds := by
      simp [boostSteps, boostThresholds]
    have m20 : ((20 : ℕ), (1/4 : ℚ)) ∈ boostSteps.zip boostThresholds := by
      simp [boostSteps, boostThresholds]
    simp only [boostSteps, boostThresholds, List.zip, List.zipWith,
      List.mem_cons, List.not_mem_nil, or_false, Prod.mk.injEq] at hp
    rw [boostFromRatio_eq]
    rcases hp with rfl | rfl | rfl | rfl | rfl | rfl | rfl <;>
      dsimp only at hle hmem ⊢
    · have n19 : ¬ (19/20 : ℚ) ≤ r := fun hc => by linarith [hmem 100 _ m100 hc]
      have n17 : ¬ (17/20 : ℚ) ≤ r := fun hc => by linarith [hmem 80 _ m80 hc]
      have n13 : ¬ (13/20 : ℚ) ≤ r := fun hc => by linarith [hmem 60 _ m60 hc]
      have n11 : ¬ (11/20 : ℚ) ≤ r := fun hc => by linarith [hmem 50 _ m50 hc]
      have n9 : ¬ (9/20 : ℚ) ≤ r := fun hc => by linarith [hmem 40 _ m40 hc]
      have n5 : ¬ (1/4 : ℚ) ≤ r := fun hc => by linarith [hmem 20 _ m20 hc]
      rw [if_neg n19, if_neg n17, if_neg n13, if_neg n11, if_neg n9, if_neg n5]
    · have n19 : ¬ (19/20 : ℚ) ≤ r := fun hc => by linarith [hmem 100 _ m100 hc]
      have n17 : ¬ (17/20 : ℚ) ≤ r := fun hc => by linarith [hmem 80 _ m80 hc]
      have n13 : ¬ (13/20 : ℚ) ≤ r := fun hc => by linarith [hmem 60 _ m60 hc]
      have n11 : ¬ (11/20 : ℚ) ≤ r := fun hc => by linarith [hmem 50 _ m50 hc]
      have n9 : ¬ (9/20 : ℚ) ≤ r := fun hc => by linarith [hmem 40 _ m40 hc]
      rw [if_neg n19, if_neg n17, if_neg n13, if_neg n11, if_neg n9, if_pos hle]
    · have n19 : ¬ (19/20 : ℚ) ≤ r := fun hc => by linarith [hmem 100 _ m100 hc]
      have n17 : ¬ (17/20 : ℚ) ≤ r := fun hc => by linarith [hmem 80 _ m80 hc]
      have n13 : ¬ (13/20 : ℚ) ≤ r := fun hc => by linarith [hmem 60 _ m60 hc]
      have n11 : ¬ (11/20 : ℚ) ≤ r := fun hc => by linarith [hmem 50 _ m50 hc]
      rw [if_neg n19, if_neg n17, if_neg n13, if_neg n11, if_pos hle]
    · have n19 : ¬ (19/20 : ℚ) ≤ r := fun hc => by linarith [hmem 100 _ m100 hc]
      have n17 : ¬ (17/20 : ℚ) ≤ r := fun hc => by linarith [hmem 80 _ m80 hc]
      have n13 : ¬ (13/20 : ℚ) ≤ r := fun hc => by linarith [hmem 60 _ m60 hc]
      rw [if_neg n19, if_neg n17, if_neg n13, if_pos hle]
    · have n19 : ¬ (19/20 : ℚ) ≤ r := fun hc => by linarith [hmem 100 _ m100 hc]
      have n17 : ¬ (17/20 : ℚ) ≤ r := fun hc => by linarith [hmem 80 _ m80 hc]
      rw [if_neg n19, if_neg n17, if_pos hle]
    · have n19 : ¬ (19/20 : ℚ) ≤ r := fun hc => by linarith [hmem 100 _ m100 hc]
      rw [if_neg n19, if_pos hle]
    · rw [if_pos hle]

/-- C8, witness: monotonicity at `0.25 ≤ 0.5` and the zero step below
`0.05`. -/
theorem c8_gauge_quantizer_witness :
    boostFromRatio (1/4) ≤ boostFromRatio (1/2) ∧
    boostFromRatio (1/100) = 0 :=
  ⟨c8_gauge_quantizer.1 (1/4) (1/2) (by norm_num),
   c8_gauge_quantizer.2.2.1 (1/100) (by norm_num)⟩

/-! ## Claim C4 — card detection never returns null for large images -/

/-- The first-maximal scan only returns elements of its input. -/
theorem largestContour_mem :
    ∀ (cs : List Contour) (c : Contour), largestContour cs = some c → c ∈ cs := by
  have go : ∀ (cs : List Contour) (acc : Option Contour) (c : Contour),
      cs.foldl (fun acc c =>
        match acc with
        | none => some c
        | some b => if b.area < c.area then some c else acc) acc = some c →
      c ∈ cs ∨ acc = some c := by
    intro cs
    induction cs with
    | nil => intro acc c h; exact Or.inr h
    | cons d cs ih =>
        intro acc c h
        rw [List.foldl_cons] at h
        rcases ih _ c h with hin | hacc
        · exact Or.inl (List.mem_cons_of_mem d hin)
        · rcases acc with _ | b
          · simp only [Option.some.injEq] at hacc
            exact Or.inl (hacc ▸ List.mem_cons_self d cs)
          · dsimp only at hacc
            by_cases hlt : b.area < d.area
            · rw [if_pos hlt] at hacc
              simp only [Option.some.injEq] at hacc
              exact Or.inl (hacc ▸ List.mem_cons_self d cs)
            · rw [if_neg hlt] at hacc
              exact Or.inr hacc
  intro cs c h
  rcases go cs none c h with hin | hacc
  · exact hin
  · exact absurd hacc (by simp)

/-- C4, counterexample.  The claim says detection never returns null when
both sides are at least 300.  But the whole body runs inside
`try: ... except: return None`, and for a 300×500000 image (both sides
≥ 300) normalization computes `int(300 * 1280/500000) = 0`, `cv2.resize`
raises on the empty target size, and the code returns `None`. -/
theorem c4_detect_counterexample :
    (300 ≤ 300 ∧ 300 ≤ 500000) ∧
    (normalizeDims 300 500000).1 = 0 ∧
    detect_card 300 500000 [] = none := by
  refine ⟨⟨le_refl 300, by norm_num⟩, ?_, ?_⟩
  · norm_num [normalizeDims]
  · norm_num [detect_card, normalizeDims]

/-- C4, amended.  Detection returns `none` exactly when a side is below 300
or normalization truncates a scaled dimension to zero pixels (the
exception-handler path, reachable only for extreme aspect ratios with the
longer side above 1280); for every other image with both sides at least 300
it always succeeds, returning either the whole normalized frame at position
`(0, 0, width, height)` or the bounding box of one of the mask's contours
whose height/width ratio lies in `[1.0, 1.8]`. -/
theorem c4_detect_amended (w h : ℕ) (cs : List Contour) :
    (detect_card w h cs = none ↔
      (w < 300 ∨ h < 300) ∨
      (normalizeDims w h).1 = 0 ∨ (normalizeDims w h).2 = 0) ∧
    (300 ≤ w → 300 ≤ h →
      (normalizeDims w h).1 ≠ 0 → (normalizeDims w h).2 ≠ 0 →
      ∃ r : CardRegion, detect_card w h cs = some r ∧
        (r = ⟨0, 0, (normalizeDims w h).1, (normalizeDims w h).2⟩ ∨
          ∃ c ∈ cs, r = ⟨c.cx, c.cy, c.cw, c.ch⟩ ∧
            1 ≤ (c.ch : ℚ) / c.cw ∧ (c.ch : ℚ) / c.cw ≤ 9/5)) := by
  by_cases hsmall : w < 300 ∨ h < 300
  · refine ⟨by simp [detect_card, hsmall], fun hw hh _ _ => ?_⟩
    exact absurd hsmall (by omega)
  by_cases hzero : (normalizeDims w h).1 = 0 ∨ (normalizeDims w h).2 = 0
  · have hnone : detect_card w h cs = none := by
      unfold detect_card
      rw [if_neg hsmall]
      simp only [hzero, if_true]
    refine ⟨by simp [hnone, hzero], fun _ _ hW hH => ?_⟩
    rcases hzero with hz | hz
    · exact absurd hz hW
    · exact absurd hz hH
  · have heq : detect_card w h cs =
        match largestContour (cs.filter (fun c =>
          decide ((((normalizeDims w h).1 : ℚ) * ((normalizeDims w h).2 : ℚ) *
            (1 / 10)) < c.area))) with
        | some c =>
            if aspectOK c then some ⟨c.cx, c.cy, c.cw, c.ch⟩
            else some ⟨0, 0, (normalizeDims w h).1, (normalizeDims w h).2⟩
        | none => some ⟨0, 0, (normalizeDims w h).1, (normalizeDims w h).2⟩ := by
      unfold detect_card
      rw [if_neg hsmall]
      simp only [hzero, if_false]
    have hbig : ∃ r : CardRegion, detect_card w h cs = some r ∧
        (r = ⟨0, 0, (normalizeDims w h).1, (normalizeDims w h).2⟩ ∨
          ∃ c ∈ cs, r = ⟨c.cx, c.cy, c.cw, c.ch⟩ ∧
            1 ≤ (c.ch : ℚ) / c.cw ∧ (c.ch : ℚ) / c.cw ≤ 9/5) := by
      rcases hbest : largestContour (cs.filter (fun c =>
          decide ((((normalizeDims w h).1 : ℚ) * ((normalizeDims w h).2 : ℚ) *
            (1 / 10)) < c.area))) with _ | c
      · rw [hbest] at heq
        dsimp only at heq
        exact ⟨⟨0, 0, (normalizeDims w h).1, (normalizeDims w h).2⟩, heq,
          Or.inl rfl⟩
      · rw [hbest] at heq
        dsimp only at heq
        have hmem : c ∈ cs :=
          List.mem_of_mem_filter (largestContour_mem _ c hbest)
        by_cases hasp : aspectOK c
        · rw [if_pos hasp] at heq
          exact ⟨⟨c.cx, c.cy, c.cw, c.ch⟩, heq,
            Or.inr ⟨c, hmem, rfl, hasp.1, hasp.2⟩⟩
        · rw [if_neg hasp] at heq
          exact ⟨⟨0, 0, (normalizeDims w h).1, (normalizeDims w h).2⟩, heq,
            Or.inl rfl⟩
    refine ⟨?_, fun _ _ _ _ => hbig⟩
    obtain ⟨r, hr, _⟩ := hbig
    rw [hr]
    simp [hsmall, hzero]

/-- C4, witness for the amended theorem: a 400×500 image (no resize, so both
normalized dimensions nonzero) with no qualifying contour still yields a
card region. -/
theorem c4_detect_amended_witness :
    300 ≤ 400 ∧ 300 ≤ 500 ∧ detect_card 400 500 [] ≠ none :=
  ⟨by norm_num, by norm_num, by
    obtain ⟨r, hr, _⟩ :=
      (c4_detect_amended 400 500 []).2 (by norm_num) (by norm_num)
        (by decide) (by decide)
    simp [hr]⟩

/-! ## Claim C6 — per-field defaults on total OCR miss -/

/-- C6, counterexample.  The claim includes `boost_level` among the fields
that fall back to their default with confidence 0.0 when OCR yields nothing;
but `recognize_text` dispatches `boost_level` to the gauge analyzer before
any OCR preprocessing, and a successful gauge analysis returns confidence
1.0 — here `("40", 1.0) ≠ ("0", 0.0)` although the only variant's text is
empty after post-processing. -/
theorem c6_default_counterexample :
    postprocessText [] "" "boost_level" = "" ∧
    recognizeText [] "boost_level" ⟨false, [""], ⟨10, 4,
      [[true, true, true, true, true, false, false, false, false, false],
       [true, true, true, true, true, false, false, false, false, false],
       [true, true, true, true, true, false, false, false, false, false],
       [true, true, true, true, true, false, false, false, false, false]]⟩⟩ =
      ("40", 1) ∧
    ¬ (("40", (1 : ℚ)) = (defaultValue "boost_level", 0)) := by
  refine ⟨by decide, ?_, by decide⟩
  simp [recognizeText, recognizeBoostLevel, scanRow, scanRowGo, anyGreenAhead,
    boostFromRatio, boostSteps, boostThresholds]
  norm_num
  decide

/-- C6, amended.  For the six OCR-path fields, if every preprocessing
variant's post-processed text is empty, recognition returns the fixed
per-field default with confidence exactly 0.0 (and the default table is
exactly the one claimed); `boost_level` never takes this path — it is
dispatched to the gauge analyzer (its `"0"`/0.0 outcome arises only from the
analyzer's exception handler). -/
theorem c6_default_fallback (dict : List (String × String)) (f : String)
    (v : FieldView) (hempty : v.isEmpty = false)
    (hf : f ∈ ["overall", "position", "salary", "enhance_level",
               "player_name", "season_icon"])
    (hall : ∀ r ∈ v.raws, postprocessText dict r f = "") :
    recognizeText dict f v = (defaultValue f, 0) ∧
    defaultValue "overall" = "80" ∧ defaultValue "position" = "ST" ∧
    defaultValue "salary" = "1" ∧ defaultValue "enhance_level" = "0" ∧
    defaultValue "player_name" = "알 수 없음" ∧
    defaultValue "season_icon" = "21FC" ∧ defaultValue "boost_level" = "0" := by
  have hb : f ≠ "boost_level" := by
    simp only [List.mem_cons, List.not_mem_nil, or_false] at hf
    rcases hf with rfl | rfl | rfl | rfl | rfl | rfl <;> decide
  have hres : (v.raws.map (fun r => postprocessText dict r f)).filter
      (fun t => t ≠ "") = [] := by
    rw [List.filter_eq_nil_iff]
    intro a ha
    simp only [List.mem_map] at ha
    obtain ⟨r, hr, rfl⟩ := ha
    simp [hall r hr]
  refine ⟨?_, rfl, rfl, rfl, rfl, rfl, rfl, rfl⟩
  unfold recognizeText
  rw [if_neg (by simp [hempty]), if_neg hb, hres]
  rfl

/-- C6, witness for the amended theorem: the overall field with every variant
empty returns `("80", 0.0)`. -/
theorem c6_default_fallback_witness :
    recognizeText [] "overall" ⟨false, ["", "x", "", ""], ⟨0, 0, []⟩⟩ =
      (defaultValue "overall", 0) ∧ defaultValue "overall" = "80" :=
  ⟨(c6_default_fallback [] "overall" ⟨false, ["", "x", "", ""], ⟨0, 0, []⟩⟩
      rfl (by decide) (by decide)).1,
   rfl⟩

/-! ## Claim C7 — voting and confidence -/

/-- C7.  When at least one variant yields non-empty post-processed text, the
returned value is a most frequent post-processed string (first-seen wins on
ties), and — absent a player-name dictionary override — the confidence is
its occurrence count divided by the number of variants attempted, which lies
in `(0, 1]`. -/
theorem c7_vote_confidence (dict : List (String × String)) (f : String)
    (v : FieldView) (hempty : v.isEmpty = false) (hb : f ≠ "boost_level")
    (s : String) (c : ℕ)
    (hwin : argmaxCount ((v.raws.map (fun r => postprocessText dict r f)).filter
      (fun t => t ≠ "")) = some (s, c))
    (hdict : f = "player_name" → dictHas dict s = false) :
    recognizeText dict f v = (s, (c : ℚ) / (v.raws.length : ℚ)) ∧
    s ∈ (v.raws.map (fun r => postprocessText dict r f)).filter
      (fun t => t ≠ "") ∧
    c = ((v.raws.map (fun r => postprocessText dict r f)).filter
      (fun t => t ≠ "")).count s ∧
    (∀ t : String, ((v.raws.map (fun r => postprocessText dict r f)).filter
      (fun t => t ≠ "")).count t ≤ c) ∧
    0 < (c : ℚ) / (v.raws.length : ℚ) ∧ (c : ℚ) / (v.raws.length : ℚ) ≤ 1 := by
  obtain ⟨hsmem, hscount, hsmax⟩ := argmaxCount_spec _ s c hwin
  have hvne : v.raws ≠ [] := by
    intro hnil
    rw [hnil] at hsmem
    simp at hsmem
  have hvlen : 0 < v.raws.length := List.length_pos.mpr hvne
  have hcpos : 0 < c := by
    rw [hscount]
    exact List.count_pos_iff.mpr hsmem
  have hclen : c ≤ v.raws.length := by
    rw [hscount]
    calc ((v.raws.map (fun r => postprocessText dict r f)).filter
          (fun t => t ≠ "")).count s
        ≤ ((v.raws.map (fun r => postprocessText dict r f)).filter
          (fun t => t ≠ "")).length := List.count_le_length _ _
      _ ≤ (v.raws.map (fun r => postprocessText dict r f)).length :=
          List.length_filter_le _ _
      _ = v.raws.length := List.length_map _ _
  refine ⟨?_, hsmem, hscount, hsmax, ?_, ?_⟩
  · unfold recognizeText
    rw [if_neg (by simp [hempty]), if_neg hb]
    dsimp only
    rw [hwin]
    dsimp only
    rw [if_neg ?hneg]
    case hneg =>
      rintro ⟨hf1, hf2⟩
      rw [hdict hf1] at hf2
      exact absurd hf2 (by simp)
  · exact div_pos (by exact_mod_cast hcpos) (by exact_mod_cast hvlen)
  · rw [div_le_one (by exact_mod_cast hvlen)]
    exact_mod_cast hclen

/-- C7, witness: four variants of the overall field, two reading `"85"` and
two empty, give value `"85"` with confidence `2/4`. -/
theorem c7_vote_confidence_witness :
    recognizeText [] "overall" ⟨false, ["85", "85", "", ""], ⟨0, 0, []⟩⟩ =
      ("85", ((2 : ℕ) : ℚ) / ((4 : ℕ) : ℚ)) ∧
    0 < ((2 : ℕ) : ℚ) / ((4 : ℕ) : ℚ) ∧
    ((2 : ℕ) : ℚ) / ((4 : ℕ) : ℚ) ≤ 1 := by
  have h := c7_vote_confidence [] "overall"
    ⟨false, ["85", "85", "", ""], ⟨0, 0, []⟩⟩ rfl (by decide) "85" 2
    (by decide) (fun hpn => absurd hpn (by decide))
  exact ⟨h.1, h.2.2.2.2.1, h.2.2.2.2.2⟩

/-! ## Claim C2 — player-name dictionary override -/

/-- C2, counterexample.  The claim says that whenever the winning post-strip
text matches a dictionary key the outcome carries confidence exactly 1.0.
With the dictionary `{"JKim" ↦ "Jinhyuk Kim"}` and four variants whose
stripped outputs are `"JKim", "JKim", "", ""`, the winning stripped text is
the key `"JKim"`, yet the code (which applies the dictionary during
per-variant post-processing, and at vote time only re-checks the already
corrected winner) returns `("Jinhyuk Kim", 0.5)` — confidence `1/2 ≠ 1`. -/
theorem c2_dict_override_counterexample :
    argmaxCount (((["J Kim", "J.Kim", "", ""]).map stripName).filter
      (fun t => t ≠ "")) = some ("JKim", 2) ∧
    dictGet [("JKim", "Jinhyuk Kim")] "JKim" = some "Jinhyuk Kim" ∧
    recognizeText [("JKim", "Jinhyuk Kim")] "player_name"
      ⟨false, ["J Kim", "J.Kim", "", ""], ⟨0, 0, []⟩⟩ = ("Jinhyuk Kim", 1/2) ∧
    ((1 : ℚ)/2 ≠ 1) := by
  refine ⟨by decide, by decide, ?_, by norm_num⟩
  simp [recognizeText, postprocessText, stripName, isWordChar, dictGet,
    dictHas, dictGetD, argmaxCount, firstDedup, firstDedupGo, argmaxGo]
  norm_num

/-- C2, amended.  After recording the correction `"JKim" ↦ "Jinhyuk Kim"`,
any field image whose post-strip OCR output is `"JKim"` on every one of the
four player-name variants yields `("Jinhyuk Kim", 1.0)` — because every
variant is corrected by the per-variant dictionary application and the four
agreeing variants give vote confidence `4/4 = 1.0` (the vote-time override
itself does not fire: the post-processed winner `"Jinhyuk Kim"` is not a
dictionary key).  When some variants are empty instead, the value is still
the corrected name but the confidence is the vote ratio (see the
counterexample). -/
theorem c2_dict_override_amended (raws : List String) (g : GreenMask)
    (hlen : raws.length = 4) (hall : ∀ r ∈ raws, stripName r = "JKim") :
    recognizeText [("JKim", "Jinhyuk Kim")] "player_name" ⟨false, raws, g⟩ =
      ("Jinhyuk Kim", 1) := by
  have hpp : ∀ r ∈ raws,
      postprocessText [("JKim", "Jinhyuk Kim")] r "player_name" =
        "Jinhyuk Kim" := by
    intro r hr
    simp [postprocessText, hall r hr, dictGet]
  rcases raws with _ | ⟨a, _ | ⟨b, _ | ⟨c, _ | ⟨d, rest⟩⟩⟩⟩ <;>
    simp only [List.length_nil, List.length_cons] at hlen
  · omega
  · omega
  · omega
  · omega
  · have hrest : rest = [] := List.eq_nil_of_length_eq_zero (by omega)
    subst hrest
    have ha := hpp a (by simp)
    have hb2 := hpp b (by simp)
    have hc2 := hpp c (by simp)
    have hd2 := hpp d (by simp)
    simp [recognizeText, ha, hb2, hc2, hd2, argmaxCount, firstDedup,
      firstDedupGo, argmaxGo, dictHas, dictGet, dictGetD]

/-- C2, witness for the amended theorem: four raw variants all stripping to
`"JKim"`. -/
theorem c2_dict_override_amended_witness :
    recognizeText [("JKim", "Jinhyuk Kim")] "player_name"
      ⟨false, ["JKim", "J Kim", "J.Kim", "J-Kim"], ⟨0, 0, []⟩⟩ =
      ("Jinhyuk Kim", 1) :=
  c2_dict_override_amended ["JKim", "J Kim", "J.Kim", "J-Kim"] ⟨0, 0, []⟩
    (by decide) (by decide)


/-! ## Claim C3 — result-cache capacity and FIFO eviction -/

/-- C3.  Folding any sequence of cache writes from the empty cache keeps at
most 1000 entries; and writing 1001 pairs with pairwise-distinct keys leaves
exactly 1000 entries, with the first-written key absent and the last-written
key present (the recognizer instantiates the key with the string
`field + "_" + md5(image bytes)` and the value with `(text, confidence)`). -/
theorem c3_cache_capacity_fifo {K V : Type} [DecidableEq K] :
    (∀ ops : List (K × V),
      (ops.foldl (fun cache kv => cachePut cache kv.1 kv.2)
        ([] : List (K × V))).length ≤ 1000) ∧
    (∀ (ps : List (K × V)) (p0 pl : K × V),
      (ps.map Prod.fst).Nodup → ps.length = 1001 →
      ps.head? = some p0 → ps.getLast? = some pl →
      (ps.foldl (fun cache kv => cachePut cache kv.1 kv.2) []).length = 1000 ∧
      dictGet (ps.foldl (fun cache kv => cachePut cache kv.1 kv.2) []) p0.1 =
        none ∧
      dictGet (ps.foldl (fun cache kv => cachePut cache kv.1 kv.2) []) pl.1 =
        some pl.2) := by
  have go1 : ∀ (ops cache : List (K × V)), cache.length ≤ 1000 →
      (ops.foldl (fun cache kv => cachePut cache kv.1 kv.2) cache).length ≤
        1000 := by
    intro ops
    induction ops with
    | nil => intro cache h; exact h
    | cons kv ops ih =>
        intro cache h
        exact ih _ (cachePut_length_le _ _ _ h)
  refine ⟨fun ops => go1 ops [] (by simp), ?_⟩
  intro ps p0 pl hnodup hlen hhead hlast
  rcases List.eq_nil_or_concat ps with rfl | ⟨L, b, rfl⟩
  · simp at hlen
  simp only [List.concat_eq_append] at hnodup hlen hhead hlast ⊢
  have hb : b = pl := by
    rw [List.getLast?_concat] at hlast
    exact Option.some.inj hlast
  subst hb
  have hL : L.length = 1000 := by
    simp only [List.length_append, List.length_cons, List.length_nil] at hlen
    omega
  have hLne : L ≠ [] := by
    intro hc
    rw [hc] at hL
    simp at hL
  obtain ⟨hnodupL, hnotin⟩ : (L.map Prod.fst).Nodup ∧ b.1 ∉ L.map Prod.fst := by
    rw [List.map_append] at hnodup
    obtain ⟨h1, _, hdisj⟩ := List.nodup_append.mp hnodup
    exact ⟨h1, fun hmem => hdisj hmem (by simp)⟩
  have hfold : L.foldl (fun cache kv => cachePut cache kv.1 kv.2) [] = L := by
    have hfr := foldl_cachePut_fresh L ([] : List (K × V))
      (fun p _ => rfl) hnodupL (by simp [hL])
    simpa using hfr
  rw [List.foldl_append, hfold, List.foldl_cons, List.foldl_nil]
  have hgetL : dictGet L b.1 = none := dictGet_eq_none_of_not_mem L b.1 hnotin
  have hput : cachePut L b.1 b.2 = L.drop 1 ++ [b] := by
    simp only [cachePut, dictInsert_of_get_none L b.1 b.2 hgetL]
    rw [if_pos (by simp [hL])]
    rw [List.drop_append_of_le_length (by omega)]
  rw [hput]
  obtain ⟨rest, hrest⟩ : ∃ rest, L = p0 :: rest := by
    rw [List.head?_append_of_ne_nil _ hLne] at hhead
    rcases L with _ | ⟨x, rest⟩
    · exact absurd rfl hLne
    · simp only [List.head?_cons, Option.some.injEq] at hhead
      exact ⟨rest, by rw [hhead]⟩
  subst hrest
  have hdrop : (p0 :: rest).drop 1 = rest := rfl
  rw [hdrop]
  refine ⟨?_, ?_, ?_⟩
  · simp only [List.length_append, List.length_cons, List.length_nil]
    simp only [List.length_cons] at hL
    omega
  · apply dictGet_eq_none_of_not_mem
    rw [List.map_append]
    rw [List.map_cons, List.nodup_cons] at hnodupL
    intro hc
    rcases List.mem_append.mp hc with hc1 | hc2
    · exact hnodupL.1 hc1
    · simp only [List.map_cons, List.map_nil, List.mem_cons,
        List.not_mem_nil, or_false] at hc2
      exact hnotin (by simp [hc2])
  · rw [dictGet_append]
    have hn : dictGet rest b.1 = none := by
      apply dictGet_eq_none_of_not_mem
      intro hc
      exact hnotin (by simp [hc])
    rw [hn]
    simp [dictGet]

set_option maxRecDepth 100000 in
/-- C3, witness: 1001 writes under distinct keys `0, …, 1000` leave 1000
entries, key `0` evicted and key `1000` present. -/
theorem c3_cache_capacity_fifo_witness :
    (((List.range 1001).map (fun i => (i, i))).foldl
      (fun cache kv => cachePut cache kv.1 kv.2) ([] : List (ℕ × ℕ))).length =
      1000 ∧
    dictGet (((List.range 1001).map (fun i => (i, i))).foldl
      (fun cache kv => cachePut cache kv.1 kv.2) []) 0 = none ∧
    dictGet (((List.range 1001).map (fun i => (i, i))).foldl
      (fun cache kv => cachePut cache kv.1 kv.2) []) 1000 = some 1000 := by
  have h := c3_cache_capacity_fifo.2 ((List.range 1001).map (fun i => (i, i)))
    (0, 0) (1000, 1000)
    (by
      have : ((List.range 1001).map (fun i => ((i : ℕ), (i : ℕ)))).map
          Prod.fst = List.range 1001 := by
        rw [List.map_map]
        exact List.map_id _
      rw [this]
      exact List.nodup_range 1001)
    (by simp)
    (by decide)
    (by decide)
  exact h

/-! ## Claim C9 — classifier fusion -/

/-- C9.  For a field with a loaded classifier whose roi is present and whose
inference yields `(value, confidence)`: the final outcome is the
classifier's pair exactly when its confidence strictly exceeds the OCR
confidence, and the untouched OCR outcome otherwise; the decision reads and
writes only that field's entries, and the `player_name` and `boost_level`
outcomes are never replaced (no classifier is ever loaded for them). -/
theorem c9_fusion (dict : List (String × String))
    (rois : List (String × Option FieldView)) (present : String → Bool)
    (predict : String → Option (String × ℚ)) (f : String) (fv : FieldView)
    (vc : String × ℚ) (hm : f ∈ loadModels present)
    (hroi : dictGet rois f = some (some fv)) (hpred : predict f = some vc) :
    (dictGet (recognizeAllCombined dict rois present predict).results f =
      (if dictGetD (recognizeAllOCR dict rois).confidences f 0 < vc.2
       then some vc.1 else dictGet (recognizeAllOCR dict rois).results f) ∧
     dictGet (recognizeAllCombined dict rois present predict).confidences f =
      (if dictGetD (recognizeAllOCR dict rois).confidences f 0 < vc.2
       then some vc.2
       else dictGet (recognizeAllOCR dict rois).confidences f)) ∧
    (dictGet (recognizeAllCombined dict rois present predict).results
        "player_name" =
      dictGet (recognizeAllOCR dict rois).results "player_name" ∧
     dictGet (recognizeAllCombined dict rois present predict).confidences
        "player_name" =
      dictGet (recognizeAllOCR dict rois).confidences "player_name" ∧
     dictGet (recognizeAllCombined dict rois present predict).results
        "boost_level" =
      dictGet (recognizeAllOCR dict rois).results "boost_level" ∧
     dictGet (recognizeAllCombined dict rois present predict).confidences
        "boost_level" =
      dictGet (recognizeAllOCR dict rois).confidences "boost_level") := by
  have hnodup : (loadModels present).Nodup :=
    List.Nodup.filter present (by decide)
  have hpn : "player_name" ∉ loadModels present := fun hc =>
    absurd (List.mem_of_mem_filter hc) (by decide)
  have hbl : "boost_level" ∉ loadModels present := fun hc =>
    absurd (List.mem_of_mem_filter hc) (by decide)
  constructor
  · exact foldl_combineStep_lookup_in rois predict fv vc (loadModels present)
      (recognizeAllOCR dict rois) f hnodup hm hroi hpred
  · obtain ⟨h1, h2⟩ := foldl_combineStep_lookup_notin rois predict
      (loadModels present) (recognizeAllOCR dict rois) "player_name" hpn
    obtain ⟨h3, h4⟩ := foldl_combineStep_lookup_notin rois predict
      (loadModels present) (recognizeAllOCR dict rois) "boost_level" hbl
    exact ⟨h1, h2, h3, h4⟩

/-- C9, witness: one field (`overall`) with a loaded classifier. -/
theorem c9_fusion_witness :
    (dictGet (recognizeAllCombined []
        [("overall", some ⟨false, ["85", "85", "", ""], ⟨0, 0, []⟩⟩)]
        (fun f => decide (f = "overall"))
        (fun f => if f = "overall" then some ("90", (9 : ℚ)/10) else none)).results
        "overall" =
      (if dictGetD (recognizeAllOCR []
          [("overall", some ⟨false, ["85", "85", "", ""], ⟨0, 0, []⟩⟩)]).confidences
          "overall" 0 < ((9 : ℚ)/10)
       then some "90"
       else dictGet (recognizeAllOCR []
          [("overall", some ⟨false, ["85", "85", "", ""], ⟨0, 0, []⟩⟩)]).results
          "overall")) ∧
    dictGet (recognizeAllCombined []
        [("overall", some ⟨false, ["85", "85", "", ""], ⟨0, 0, []⟩⟩)]
        (fun f => decide (f = "overall"))
        (fun f => if f = "overall" then some ("90", (9 : ℚ)/10) else none)).results
        "player_name" =
      dictGet (recognizeAllOCR []
        [("overall", some ⟨false, ["85", "85", "", ""], ⟨0, 0, []⟩⟩)]).results
        "player_name" := by
  have h := c9_fusion []
    [("overall", some ⟨false, ["85", "85", "", ""], ⟨0, 0, []⟩⟩)]
    (fun f => decide (f = "overall"))
    (fun f => if f = "overall" then some ("90", (9 : ℚ)/10) else none)
    "overall" ⟨false, ["85", "85", "", ""], ⟨0, 0, []⟩⟩ ("90", (9 : ℚ)/10)
    (by decide) rfl rfl
  exact ⟨h.1.1, h.2.1⟩

/-! ## Claim C10 — the success flag is unconditionally true -/

/-- C10.  `recognize_all` sets `success` to `True` before processing any
field and no path ever changes it — for every input roi map, including the
empty one and ones whose fields all fall back to defaults, and in both the
OCR-only and the combined recognizer. -/
theorem c10_success_flag (dict : List (String × String))
    (rois : List (String × Option FieldView)) (present : String → Bool)
    (predict : String → Option (String × ℚ)) :
    (recognizeAllOCR dict rois).success = true ∧
    (recognizeAllCombined dict rois present predict).success = true := by
  constructor
  · unfold recognizeAllOCR
    rw [success_foldl_ocrStep]
  · unfold recognizeAllCombined
    rw [success_foldl_combineStep]
    unfold recognizeAllOCR
    rw [success_foldl_ocrStep]

end FC
